import Mathlib

/-!
Verification development for the find-and-replace module.

The definitions below are a shallow embedding of the module's core logic:

* `find-replace-logic.js` (`FindReplaceLogic`): search, navigation and
  replacement over a ProseMirror document;
* `ui-controller.js` (`UIController`): the find-input commit decision;
* `main.js` (`handleProseMirrorElement`): the controller registry and
  adapter rebinding on surface replacement.

JavaScript strings are modelled as `List Char` with a per-character
`toLowerCase`; the ProseMirror document (an external collaborator, specified
at its interface boundary) is modelled as the ordered tree of nodes with the
standard ProseMirror position scheme: a text node occupies as many positions
as it has characters, an element node occupies two positions (open and close
tokens) plus its content, and the children of the document start at
position 0.  `doc.descendants` visits every text node together with its
absolute start position; `tr.insertText(s, from, to)` replaces the range
`[from, to)` — the module only ever issues such ranges strictly inside a
single text leaf, and the model returns `none` on any other range.
-/

/-- JavaScript string, modelled as a list of characters. -/
abbrev JStr := List Char

/-- Per-character `toLowerCase`, the model of `String.prototype.toLowerCase`. -/
def jsToLower (s : JStr) : JStr := s.map Char.toLower

/-- Case normalisation used by `findAll`: identity when `matchCase` is set,
`toLowerCase` otherwise. -/
def jsNorm (matchCase : Bool) (s : JStr) : JStr :=
  if matchCase then s else jsToLower s

/-- First occurrence of `pat` in `s` (smallest index at which `pat` is a
prefix of the corresponding suffix), the model of `String.prototype.indexOf`
restricted to a non-empty pattern. -/
def firstOccAux (pat : JStr) : JStr → Option Nat
  | [] => if pat.isEmpty then some 0 else none
  | c :: rest =>
    if List.isPrefixOf pat (c :: rest) then some 0
    else (firstOccAux pat rest).map (· + 1)

/-- `s.indexOf(pat, start)` for a non-empty `pat`: first occurrence of `pat`
in `s` at an index `≥ start`. -/
def stringIndexOf (pat s : JStr) (start : Nat) : Option Nat :=
  (firstOccAux pat (s.drop start)).map (· + start)

/-- The scan loop of `findAll` inside one text node: repeatedly take
`indexOf` from the cursor and advance the cursor by `adv` (the search term's
length) past each hit.  The JS `while` loop is total because the cursor
strictly increases; the fuel argument makes that explicit and
`findMatchesIn` supplies enough fuel for the whole string. -/
def scanAux (pat s : JStr) (adv : Nat) : Nat → Nat → List Nat
  | 0, _ => []
  | fuel + 1, start =>
    match stringIndexOf pat s start with
    | none => []
    | some i => i :: scanAux pat s adv fuel (i + adv)

/-- All hit positions of the non-overlapping scan of `pat` over `s`,
advancing by `adv` after each hit (the in-node loop of `findAll`). -/
def findMatchesIn (pat s : JStr) (adv : Nat) : List Nat :=
  scanAux pat s adv (s.length + 1) 0

/-- A ProseMirror document node: a text leaf carrying a string, or an
element node with an ordered list of children. -/
inductive PMNode where
  | text (s : JStr) : PMNode
  | elem (children : List PMNode) : PMNode

/-- A document is the ordered list of the doc node's children; their
content starts at absolute position 0. -/
abbrev PMDoc := List PMNode

mutual
/-- `node.nodeSize`: a text node's size is its length, an element's size is
2 (open and close tokens) plus the size of its content. -/
def nodeSize : PMNode → Nat
  | .text s => s.length
  | .elem cs => 2 + nodesSize cs

/-- Total size of a list of sibling nodes. -/
def nodesSize : List PMNode → Nat
  | [] => 0
  | n :: ns => nodeSize n + nodesSize ns
end

/-- A match `{from, to}` as stored in `currentMatches` (the source field
names `from`/`to` are Lean keywords, hence `fromPos`/`toPos`). -/
structure PMMatch where
  fromPos : Nat
  toPos : Nat
deriving DecidableEq

mutual
/-- Matches contributed by one node visited at absolute position `pos`:
for a text node, the scan hits mapped to absolute `{from, to}` pairs
(`from = pos + index`, `to = from + adv`); for an element, the matches of
its children, whose content starts at `pos + 1`. -/
def nodeMatches (pat : JStr) (adv : Nat) (mc : Bool) : PMNode → Nat → List PMMatch
  | .text s, pos =>
    (findMatchesIn pat (jsNorm mc s) adv).map (fun i => ⟨pos + i, pos + i + adv⟩)
  | .elem cs, pos => nodesMatches pat adv mc cs (pos + 1)

/-- Matches of a list of siblings whose first node sits at position `pos`:
`doc.descendants` order, each following sibling shifted by the previous
sibling's size. -/
def nodesMatches (pat : JStr) (adv : Nat) (mc : Bool) : List PMNode → Nat → List PMMatch
  | [], _ => []
  | n :: ns, pos =>
    nodeMatches pat adv mc n pos ++ nodesMatches pat adv mc ns (pos + nodeSize n)
end

mutual
/-- `tr.insertText(repl, f, t)` landing inside a single node: for a text
leaf, splice `repl` over the in-node range `[f, t)`; for an element, the
range must lie strictly inside the content (past the open token).  Any
range that is empty, out of bounds, or crosses a node boundary yields
`none` (the module never issues such a range; ProseMirror's behaviour
there is outside the modelled interface). -/
def insertInNode (repl : JStr) (f t : Nat) : PMNode → Option PMNode
  | .text s =>
    if f < t ∧ t ≤ s.length then some (.text (s.take f ++ repl ++ s.drop t))
    else none
  | .elem cs =>
    if 1 ≤ f then (insertInChildren repl (f - 1) (t - 1) cs).map .elem
    else none

/-- `insertText` over a sibling list: positions `< nodeSize n` fall into the
head node, larger positions recurse into the tail shifted by the head's
size. -/
def insertInChildren (repl : JStr) (f t : Nat) : List PMNode → Option (List PMNode)
  | [] => none
  | n :: ns =>
    if t ≤ nodeSize n then (insertInNode repl f t n).map (· :: ns)
    else if nodeSize n ≤ f then
      (insertInChildren repl (f - nodeSize n) (t - nodeSize n) ns).map (n :: ·)
    else none
end

/-- One `tr.insertText(text, from, to)` call recorded in a transaction. -/
structure ReplStep where
  text : JStr
  fromPos : Nat
  toPos : Nat
deriving DecidableEq

/-- Apply one step to the document (the doc is the children list of the
doc node, content starting at position 0). -/
def applyStep (d : PMDoc) (st : ReplStep) : Option PMDoc :=
  insertInChildren st.text st.fromPos st.toPos d

/-- Apply a transaction's steps in order; each `insertText` acts on the
document produced by the previous one (ProseMirror transaction
semantics). -/
def applyTr (d : PMDoc) : List ReplStep → Option PMDoc
  | [] => some d
  | s :: rest =>
    match applyStep d s with
    | none => none
    | some d' => applyTr d' rest

/-- The mock dispatch of `main.js`: serialize the transaction's resulting
document back into the surface; any error while doing so is caught and the
dispatch degrades to a no-op, leaving the previous document. -/
def dispatchDoc (d : PMDoc) (steps : List ReplStep) : PMDoc :=
  (applyTr d steps).getD d

/-- The mutable fields of `FindReplaceLogic` plus the document reachable
through `this.view.state.doc`. -/
structure FRState where
  doc : PMDoc
  currentMatches : List PMMatch
  currentMatchIndex : Int
  searchTerm : JStr
  matchCase : Bool

/-- `FindReplaceLogic` constructor state for a given document. -/
def initFR (doc : PMDoc) : FRState :=
  { doc := doc, currentMatches := [], currentMatchIndex := -1,
    searchTerm := [], matchCase := false }

/-- `clear()`: drop the matches, the current index and the search term
(the case flag is left as it is; the selection reset is not modelled). -/
def clearFR (st : FRState) : FRState :=
  { st with currentMatches := [], currentMatchIndex := -1, searchTerm := [] }

/-- `findAll(searchTerm, matchCase)`: reset the search state, bail out via
`clear()` on an empty term, otherwise scan every text node of the document
in `descendants` order with the case-normalised pattern, then select the
first match when any exists.  Returns the updated state together with the
returned match array. -/
def findAll (st : FRState) (searchTerm : JStr) (matchCase : Bool) :
    FRState × List PMMatch :=
  let st1 := { st with searchTerm := searchTerm, matchCase := matchCase,
                       currentMatches := [], currentMatchIndex := -1 }
  if searchTerm.isEmpty then (clearFR st1, [])
  else
    let searchStr := if matchCase then searchTerm else jsToLower searchTerm
    let ms := nodesMatches searchStr searchTerm.length matchCase st1.doc 0
    ({ st1 with currentMatches := ms,
                currentMatchIndex := if ms.isEmpty then -1 else 0 }, ms)

/-- `findNext()`: no-op on an empty match list, otherwise increment the
current index with wraparound via the JS `%` operator (truncating
remainder). -/
def findNext (st : FRState) : FRState :=
  if st.currentMatches.length = 0 then st
  else
    { st with currentMatchIndex :=
        (st.currentMatchIndex + 1).tmod st.currentMatches.length }

/-- `findPrevious()`: no-op on an empty match list, otherwise decrement and
re-clamp below zero to the last index. -/
def findPrevious (st : FRState) : FRState :=
  if st.currentMatches.length = 0 then st
  else
    let i := st.currentMatchIndex - 1
    { st with currentMatchIndex :=
        if i < 0 then (st.currentMatches.length : Int) - 1 else i }

/-- `replaceCurrent(replaceText)`: `false` without touching anything when
there is no current match; otherwise one transaction with a single
`insertText` over the current match, dispatched, returning `true`.  The
result also carries the list of dispatched transactions.  (The delayed
re-search scheduled with `setTimeout` is a separate later `findAll` call
and not part of this synchronous step.) -/
def replaceCurrent (st : FRState) (replaceText : JStr) :
    Bool × FRState × List (List ReplStep) :=
  if st.currentMatches.length = 0 ∨ st.currentMatchIndex < 0 then (false, st, [])
  else
    let m := st.currentMatches.getD st.currentMatchIndex.toNat ⟨0, 0⟩
    let tr := [ReplStep.mk replaceText m.fromPos m.toPos]
    (true, { st with doc := dispatchDoc st.doc tr }, [tr])

/-- `replaceAll(replaceText)`: 0 and no dispatch on an empty match list;
otherwise one transaction collecting one `insertText` per match, appended
walking the match array backwards (index `length-1` down to 0), one
dispatch, then `clear()`; returns the match count and the dispatched
transactions. -/
def replaceAll (st : FRState) (replaceText : JStr) :
    Nat × FRState × List (List ReplStep) :=
  if st.currentMatches.length = 0 then (0, st, [])
  else
    let count := st.currentMatches.length
    let tr := st.currentMatches.reverse.map
      (fun m => ReplStep.mk replaceText m.fromPos m.toPos)
    (count, clearFR { st with doc := dispatchDoc st.doc tr }, [tr])

/-- The state invariant of the match engine: the current index is `-1`
exactly when the match list is empty, and otherwise a valid index into it. -/
def FRInv (st : FRState) : Prop :=
  (st.currentMatchIndex = -1 ↔ st.currentMatches = []) ∧
  (st.currentMatches ≠ [] →
    0 ≤ st.currentMatchIndex ∧
      st.currentMatchIndex < st.currentMatches.length)

instance (st : FRState) : Decidable (FRInv st) := by
  unfold FRInv; infer_instance

/-- The two actions the find input's Enter handler can route to. -/
inductive FindCommitAction where
  | searchAction
  | nextAction
deriving DecidableEq

/-- The decision of the `keydown` handler installed on the find input
(`ui-controller.js`): if the logic already has matches and its recorded
search term equals the input's current value, go to the next match,
otherwise run a new search (`onFindClick`).  The match-case checkbox is not
consulted by this decision. -/
def findInputEnterAction (logic : FRState) (inputValue : JStr) : FindCommitAction :=
  if 0 < logic.currentMatches.length ∧ logic.searchTerm = inputValue then
    .nextAction
  else .searchAction

/-- The full Enter-commit step: route per `findInputEnterAction`; the
search path is `onFindClick`, which clears on an empty input and otherwise
runs `findAll` with the input value and the checkbox state. -/
def findInputEnter (logic : FRState) (inputValue : JStr) (matchCaseChecked : Bool) :
    FindCommitAction × FRState :=
  match findInputEnterAction logic inputValue with
  | .nextAction => (.nextAction, findNext logic)
  | .searchAction =>
    if inputValue.isEmpty then (.searchAction, clearFR logic)
    else (.searchAction, (findAll logic inputValue matchCaseChecked).1)

/-- The registry-visible state of one `UIController` (`main.js`): the
adapter reference held as `this.view`, the one held by its
`FindReplaceLogic` as `this.logic.view`, the toolbar reference, the
expand/collapse flag and whether the trigger button carries the `active`
visual state.  Object identities are modelled as numbers. -/
structure CtrlModel where
  viewId : Nat
  logicViewId : Nat
  toolbarId : Nat
  isExpanded : Bool
  buttonActive : Bool
deriving DecidableEq

/-- The observable facts about a freshly mounted `prose-mirror` surface at
the moment `handleProseMirrorElement`'s delayed body runs: which DOM
queries succeed, whether a real `EditorView` is reachable, the stable id
derived from the enclosing form, and the identities of the surface's
toolbar and of the adapter that would be built for it. -/
structure MockSurface where
  menuPresent : Bool
  buttonPresent : Bool
  editorContentPresent : Bool
  pmViewDescPresent : Bool
  realViewReachable : Bool
  stableId : Nat
  menuId : Nat
  adapterId : Nat
deriving DecidableEq

/-- The controller registry, keyed by stable id. -/
abbrev Registry := List (Nat × CtrlModel)

/-- Registry lookup (`controllerRegistry.get`). -/
def regGet (reg : Registry) (k : Nat) : Option CtrlModel :=
  match reg with
  | [] => none
  | (k', c) :: rest => if k' = k then some c else regGet rest k

/-- Registry write (`controllerRegistry.set`): replace the record under the
key, or append a new one. -/
def regSet (reg : Registry) (k : Nat) (c : CtrlModel) : Registry :=
  match reg with
  | [] => [(k, c)]
  | (k', c') :: rest =>
    if k' = k then (k', c) :: rest else (k', c') :: regSet rest k c

/-- Number of records a registry holds under a key. -/
def regCount (reg : Registry) (k : Nat) : Nat :=
  match reg with
  | [] => 0
  | (k', _) :: rest => (if k' = k then 1 else 0) + regCount rest k

/-- The registry effect of `handleProseMirrorElement`'s delayed body on a
surface (`main.js` lines 526-705).  Missing menu: retry later, registry
untouched.  Button and controller both present: skip.  Missing editor
content: bail.  Real `EditorView` reachable: the native branch constructs a
fresh controller around the real view and injects the button without ever
touching the registry.  Otherwise the mock branch requires `pmViewDesc`;
a missing registry record yields a freshly constructed controller stored
under the stable id, while an existing record is rebound: `view`,
`logic.view` and the toolbar reference are pointed at the new surface, and
if the button is absent it is re-injected, restoring the `active` visual
state when the controller was expanded. -/
def handleSurface (reg : Registry) (surf : MockSurface) : Registry :=
  if ¬ surf.menuPresent then reg
  else
    let existing := regGet reg surf.stableId
    if surf.buttonPresent ∧ existing.isSome then reg
    else if ¬ surf.editorContentPresent then reg
    else if surf.realViewReachable then reg
    else if ¬ surf.pmViewDescPresent then reg
    else
      match existing with
      | none =>
        regSet reg surf.stableId
          ⟨surf.adapterId, surf.adapterId, surf.menuId, false, false⟩
      | some c =>
        let c1 := { c with viewId := surf.adapterId,
                           logicViewId := surf.adapterId,
                           toolbarId := surf.menuId }
        let c2 :=
          if ¬ surf.buttonPresent then { c1 with buttonActive := c1.isExpanded }
          else c1
        regSet reg surf.stableId c2

/-- Shift a match by `d` positions (translating between a node-relative and
an absolute position frame). -/
def shiftM (d : Nat) (m : PMMatch) : PMMatch := ⟨m.fromPos + d, m.toPos + d⟩

/-- Shift a replacement step by `d` positions. -/
def shiftStep (d : Nat) (s : ReplStep) : ReplStep :=
  ⟨s.text, s.fromPos + d, s.toPos + d⟩

/-- The steps `replaceAll` records for a match list, in the order of the
list (`stepsFor ρ ms.reverse` is the transaction built by the backward
loop). -/
def stepsFor (ρ : JStr) (ms : List PMMatch) : List ReplStep :=
  ms.map (fun m => ⟨ρ, m.fromPos, m.toPos⟩)

/-- Splice `ρ` over each range `[i, i+L)` of a string, the head index
spliced last (so a list in ascending order is processed back to front,
exactly the backward loop of `replaceAll` restricted to one text node). -/
def applyRepls (ρ : JStr) (L : Nat) (s : JStr) : List Nat → JStr
  | [] => s
  | i :: rest =>
    let w := applyRepls ρ L s rest
    w.take i ++ ρ ++ w.drop (i + L)

/-- Run a list of steps through `insertInNode` on a single node. -/
def applyTrNode (n : PMNode) : List ReplStep → Option PMNode
  | [] => some n
  | s :: rest =>
    match insertInNode s.text s.fromPos s.toPos n with
    | none => none
    | some n' => applyTrNode n' rest

mutual
/-- The node `replaceAll` leaves behind: every text leaf has `ρ` spliced
over each of its own scan hits, the tree shape untouched. -/
def replacedNode (pat ρ : JStr) (adv : Nat) (mc : Bool) : PMNode → PMNode
  | .text s => .text (applyRepls ρ adv s (findMatchesIn pat (jsNorm mc s) adv))
  | .elem cs => .elem (replacedChildren pat ρ adv mc cs)

/-- `replacedNode` over a sibling list. -/
def replacedChildren (pat ρ : JStr) (adv : Nat) (mc : Bool) :
    List PMNode → List PMNode
  | [] => []
  | n :: ns =>
    replacedNode pat ρ adv mc n :: replacedChildren pat ρ adv mc ns
end

/-! ### Facts about the single-string scan -/

theorem jsNorm_length (mc : Bool) (s : JStr) : (jsNorm mc s).length = s.length := by
  cases mc <;> simp [jsNorm, jsToLower]

theorem jsNorm_append (mc : Bool) (a b : JStr) :
    jsNorm mc (a ++ b) = jsNorm mc a ++ jsNorm mc b := by
  cases mc <;> simp [jsNorm, jsToLower]

theorem jsNorm_take (mc : Bool) (s : JStr) (n : Nat) :
    jsNorm mc (s.take n) = (jsNorm mc s).take n := by
  cases mc <;> simp [jsNorm, jsToLower, List.map_take]

theorem jsNorm_drop (mc : Bool) (s : JStr) (n : Nat) :
    jsNorm mc (s.drop n) = (jsNorm mc s).drop n := by
  cases mc <;> simp [jsNorm, jsToLower, List.map_drop]

theorem jsNorm_ne_nil (mc : Bool) (s : JStr) (h : s ≠ []) : jsNorm mc s ≠ [] := by
  cases mc <;> simpa [jsNorm, jsToLower]

/-- Iterated `drop` with added offsets. -/
theorem drop_add (s : JStr) (a b : Nat) : (s.drop a).drop b = s.drop (a + b) :=
  List.drop_drop ..

/-- A prefix at an index beyond the string requires an empty pattern. -/
theorem occ_le_length {pat s : JStr} {i : Nat} (hp : pat ≠ [])
    (h : pat <+: s.drop i) : i + pat.length ≤ s.length := by
  have hl := h.length_le
  rw [List.length_drop] at hl
  rcases le_or_lt i s.length with hle | hlt
  · omega
  · exfalso
    have : s.drop i = [] := List.drop_eq_nil_of_le (le_of_lt hlt)
    rw [this] at h
    exact hp (List.prefix_nil.mp h)

theorem firstOccAux_some {pat s : JStr} {i : Nat}
    (h : firstOccAux pat s = some i) :
    pat <+: s.drop i ∧ ∀ j, j < i → ¬ pat <+: s.drop j := by
  induction s generalizing i with
  | nil =>
    unfold firstOccAux at h
    by_cases hp : pat.isEmpty
    · simp [hp] at h
      subst h
      simp [List.isEmpty_iff.mp hp]
    · simp [hp] at h
  | cons c rest ih =>
    unfold firstOccAux at h
    by_cases hpre : List.isPrefixOf pat (c :: rest)
    · simp [hpre] at h
      subst h
      exact ⟨by simpa using List.isPrefixOf_iff_prefix.mp hpre, by omega⟩
    · simp [hpre] at h
      obtain ⟨i', hi', rfl⟩ := h
      obtain ⟨h1, h2⟩ := ih hi'
      refine ⟨by simpa using h1, ?_⟩
      intro j hj
      cases j with
      | zero =>
        simpa using fun hcon => hpre (List.isPrefixOf_iff_prefix.mpr hcon)
      | succ j' =>
        simpa using h2 j' (by omega)

theorem firstOccAux_none {pat s : JStr} (hp : pat ≠ [])
    (h : firstOccAux pat s = none) : ∀ j, ¬ pat <+: s.drop j := by
  induction s with
  | nil =>
    intro j hcon
    simp at hcon
    exact hp hcon
  | cons c rest ih =>
    unfold firstOccAux at h
    by_cases hpre : List.isPrefixOf pat (c :: rest)
    · simp [hpre] at h
    · simp [hpre] at h
      intro j
      cases j with
      | zero =>
        simpa using fun hcon => hpre (List.isPrefixOf_iff_prefix.mpr hcon)
      | succ j' => simpa using ih h j'

theorem stringIndexOf_some {pat s : JStr} {start i : Nat}
    (h : stringIndexOf pat s start = some i) :
    start ≤ i ∧ pat <+: s.drop i ∧
      ∀ j, start ≤ j → j < i → ¬ pat <+: s.drop j := by
  unfold stringIndexOf at h
  obtain ⟨i', hi', rfl⟩ := Option.map_eq_some'.mp h
  obtain ⟨h1, h2⟩ := firstOccAux_some hi'
  rw [drop_add, Nat.add_comm start i'] at h1
  refine ⟨by omega, h1, ?_⟩
  intro j hj1 hj2 hcon
  have hmin := h2 (j - start) (by omega)
  rw [drop_add] at hmin
  have hsub : start + (j - start) = j := by omega
  rw [hsub] at hmin
  exact hmin hcon

theorem stringIndexOf_none {pat s : JStr} {start : Nat} (hp : pat ≠ [])
    (h : stringIndexOf pat s start = none) :
    ∀ j, start ≤ j → ¬ pat <+: s.drop j := by
  unfold stringIndexOf at h
  intro j hj hcon
  have hmin := firstOccAux_none hp (Option.map_eq_none'.mp h) (j - start)
  rw [drop_add] at hmin
  have hsub : start + (j - start) = j := by omega
  rw [hsub] at hmin
  exact hmin hcon

theorem scanAux_ge {pat s : JStr} {adv : Nat} :
    ∀ {fuel start : Nat} {i : Nat}, i ∈ scanAux pat s adv fuel start → start ≤ i := by
  intro fuel
  induction fuel with
  | zero => intro start i h; simp [scanAux] at h
  | succ fuel ih =>
    intro start i h
    unfold scanAux at h
    cases hidx : stringIndexOf pat s start with
    | none => simp [hidx] at h
    | some j =>
      simp [hidx] at h
      rcases h with rfl | h
      · exact (stringIndexOf_some hidx).1
      · have := ih h
        have := (stringIndexOf_some hidx).1
        omega

theorem scanAux_occ {pat s : JStr} {adv : Nat} :
    ∀ {fuel start : Nat} {i : Nat}, i ∈ scanAux pat s adv fuel start →
      pat <+: s.drop i := by
  intro fuel
  induction fuel with
  | zero => intro start i h; simp [scanAux] at h
  | succ fuel ih =>
    intro start i h
    unfold scanAux at h
    cases hidx : stringIndexOf pat s start with
    | none => simp [hidx] at h
    | some j =>
      simp [hidx] at h
      rcases h with rfl | h
      · exact (stringIndexOf_some hidx).2.1
      · exact ih h

theorem scanAux_chain {pat s : JStr} {adv : Nat} :
    ∀ {fuel start : Nat},
      List.Chain' (fun i j => i + adv ≤ j) (scanAux pat s adv fuel start) := by
  intro fuel
  induction fuel with
  | zero => intro start; simp [scanAux]
  | succ fuel ih =>
    intro start
    unfold scanAux
    cases hidx : stringIndexOf pat s start with
    | none => simp
    | some j =>
      simp only []
      refine List.chain'_cons'.mpr ⟨?_, ih⟩
      intro y hy
      exact scanAux_ge (List.mem_of_mem_head? hy)

theorem scanAux_shift {pat s : JStr} {adv : Nat} :
    ∀ {fuel k d : Nat},
      scanAux pat s adv fuel (k + d) =
        (scanAux pat (s.drop d) adv fuel k).map (· + d) := by
  intro fuel
  induction fuel with
  | zero => intro k d; simp [scanAux]
  | succ fuel ih =>
    intro k d
    have hidx : stringIndexOf pat s (k + d) =
        (stringIndexOf pat (s.drop d) k).map (· + d) := by
      unfold stringIndexOf
      rw [drop_add, Nat.add_comm d k]
      cases firstOccAux pat (s.drop (k + d)) <;>
        simp [Nat.add_assoc, Nat.add_comm, Nat.add_left_comm]
    unfold scanAux
    rw [hidx]
    cases hi : stringIndexOf pat (s.drop d) k with
    | none => simp
    | some j =>
      simp only [Option.map_some']
      have heq : j + d + adv = (j + adv) + d := by omega
      rw [heq, ih]
      simp

theorem scanAux_fuel {pat s : JStr} {adv : Nat} (hp : pat ≠ []) (ha : 0 < adv) :
    ∀ {fuel1 fuel2 start : Nat}, s.length < fuel1 + start → s.length < fuel2 + start →
      scanAux pat s adv fuel1 start = scanAux pat s adv fuel2 start := by
  intro fuel1
  induction fuel1 with
  | zero =>
    intro fuel2 start h1 _
    have hidx : stringIndexOf pat s start = none := by
      unfold stringIndexOf
      have : s.drop start = [] := List.drop_eq_nil_of_le (by omega)
      rw [this]
      cases pat with
      | nil => exact absurd rfl hp
      | cons c r => simp [firstOccAux]
    cases fuel2 with
    | zero => rfl
    | succ f => simp [scanAux, hidx]
  | succ fuel1 ih =>
    intro fuel2 start h1 h2
    cases fuel2 with
    | zero =>
      have hidx : stringIndexOf pat s start = none := by
        unfold stringIndexOf
        have : s.drop start = [] := List.drop_eq_nil_of_le (by omega)
        rw [this]
        cases pat with
        | nil => exact absurd rfl hp
        | cons c r => simp [firstOccAux]
      simp [scanAux, hidx]
    | succ fuel2 =>
      unfold scanAux
      cases hidx : stringIndexOf pat s start with
      | none => rfl
      | some j =>
        have hj := (stringIndexOf_some hidx).1
        have htail : scanAux pat s adv fuel1 (j + adv) =
            scanAux pat s adv fuel2 (j + adv) :=
          ih (by omega) (by omega)
        simp only [htail]

theorem findMatchesIn_eq_nil_of_noOcc {pat w : JStr} {adv : Nat}
    (h : ∀ j, ¬ pat <+: w.drop j) : findMatchesIn pat w adv = [] := by
  unfold findMatchesIn scanAux
  cases hidx : stringIndexOf pat w 0 with
  | none => rfl
  | some i => exact absurd (stringIndexOf_some hidx).2.1 (h i)

/-- The scan hit list is chained with gap `adv`. -/
theorem findMatchesIn_chain {pat u : JStr} {adv : Nat} :
    List.Chain' (fun i j => i + adv ≤ j) (findMatchesIn pat u adv) :=
  scanAux_chain

/-- Every scan hit is an occurrence. -/
theorem findMatchesIn_occ {pat u : JStr} {adv i : Nat}
    (h : i ∈ findMatchesIn pat u adv) : pat <+: u.drop i :=
  scanAux_occ h

/-- Every scan hit fits in the string. -/
theorem findMatchesIn_fit {pat u : JStr} {adv i : Nat} (hpat : pat ≠ [])
    (h : i ∈ findMatchesIn pat u adv) : i + pat.length ≤ u.length :=
  occ_le_length hpat (findMatchesIn_occ h)


/-! ### Facts about splicing replacements into one string -/

/-- A prefix of an append that fits inside the first part is a prefix of
the first part. -/
theorem prefix_of_append_of_le {p a b : JStr} (h : p <+: a ++ b)
    (hl : p.length ≤ a.length) : p <+: a := by
  have he := List.prefix_iff_eq_take.mp h
  rw [List.take_append_of_le_length hl] at he
  rw [he]
  exact List.take_prefix ..

/-- In a chain of scan hits, every later hit clears the head by at least
the advance. -/
theorem chain_all_ge {L : Nat} {i : Nat} {tl : List Nat}
    (h : List.Chain' (fun a b => a + L ≤ b) (i :: tl)) :
    ∀ j ∈ tl, i + L ≤ j := by
  induction tl generalizing i with
  | nil => simp
  | cons j tl ih =>
    intro k hk
    have h1 : i + L ≤ j := List.chain'_cons.mp h |>.1
    have h2 := List.chain'_cons.mp h |>.2
    rcases List.mem_cons.mp hk with rfl | hk
    · exact h1
    · have := ih h2 k hk
      omega

/-- Splicing only at indices `≥ d` keeps the first `d` characters and at
least `d` characters overall. -/
theorem applyRepls_frame {ρ : JStr} {L : Nat} {s : JStr} {idxs : List Nat}
    {d : Nat} (hall : ∀ j ∈ idxs, d ≤ j) (hd : d ≤ s.length) :
    (applyRepls ρ L s idxs).take d = s.take d ∧
      d ≤ (applyRepls ρ L s idxs).length := by
  induction idxs with
  | nil => exact ⟨rfl, hd⟩
  | cons i rest ih =>
    obtain ⟨ih1, ih2⟩ := ih (fun j hj => hall j (List.mem_cons_of_mem _ hj))
    have hdi : d ≤ i := hall i (List.mem_cons_self ..)
    unfold applyRepls
    simp only []
    set w := applyRepls ρ L s rest with hw
    have hlen : (w.take i).length = min i w.length := List.length_take ..
    constructor
    · rw [List.append_assoc, List.take_append_of_le_length (by omega),
        List.take_take, Nat.min_eq_left hdi, ih1]
    · simp
      omega

/-- Splicing at indices shifted by `d` acts on the suffix past `d`. -/
theorem applyRepls_shift {ρ : JStr} {L : Nat} {s : JStr} {idxs : List Nat}
    {d : Nat} (hd : d ≤ s.length) :
    applyRepls ρ L s (idxs.map (· + d)) =
      s.take d ++ applyRepls ρ L (s.drop d) idxs := by
  induction idxs with
  | nil => simp [applyRepls]
  | cons i rest ih =>
    have hlentake : (s.take d).length = d := by simp [List.length_take]; omega
    unfold applyRepls
    simp only [List.map_cons]
    rw [ih]
    set w := applyRepls ρ L (s.drop d) rest with hw
    have h1 : (s.take d ++ w).take (i + d) = s.take d ++ w.take i := by
      rw [List.take_append_eq_append_take, hlentake,
        List.take_of_length_le (l := s.take d) (by omega)]
      congr 2
      omega
    have h2 : (s.take d ++ w).drop (i + d + L) = w.drop (i + L) := by
      rw [List.drop_append_eq_append_drop, hlentake,
        List.drop_eq_nil_of_le (by simp [List.length_take]; omega)]
      simp only [List.nil_append]
      congr 1
      omega
    rw [h1, h2]
    simp [List.append_assoc]

/-- Case normalisation commutes with splicing. -/
theorem jsNorm_applyRepls (mc : Bool) (ρ : JStr) (L : Nat) (s : JStr)
    (idxs : List Nat) :
    jsNorm mc (applyRepls ρ L s idxs) =
      applyRepls (jsNorm mc ρ) L (jsNorm mc s) idxs := by
  induction idxs with
  | nil => rfl
  | cons i rest ih =>
    unfold applyRepls
    simp only []
    rw [jsNorm_append, jsNorm_append, jsNorm_take, jsNorm_drop, ih]

/-- Unfolding equation for `applyRepls` on a non-empty index list. -/
theorem applyRepls_cons (ρ : JStr) (L : Nat) (s : JStr) (i : Nat)
    (rest : List Nat) :
    applyRepls ρ L s (i :: rest) =
      (applyRepls ρ L s rest).take i ++ ρ ++
        (applyRepls ρ L s rest).drop (i + L) := rfl

/-- One unfolding step of the scan loop. -/
theorem scanAux_succ (pat s : JStr) (adv fuel start : Nat) :
    scanAux pat s adv (fuel + 1) start =
      match stringIndexOf pat s start with
      | none => []
      | some i => i :: scanAux pat s adv fuel (i + adv) := rfl

/-- Unfolding equation: a scan with no first hit is empty. -/
theorem findMatchesIn_none {pat u : JStr} {adv : Nat}
    (h : stringIndexOf pat u 0 = none) : findMatchesIn pat u adv = [] := by
  rw [show findMatchesIn pat u adv = scanAux pat u adv (u.length + 1) 0 from rfl,
    scanAux_succ, h]

/-- Unfolding equation: a scan whose first hit is `i0` continues past
`i0 + adv`. -/
theorem findMatchesIn_cons {pat u : JStr} {adv i0 : Nat}
    (h : stringIndexOf pat u 0 = some i0) :
    findMatchesIn pat u adv = i0 :: scanAux pat u adv u.length (i0 + adv) := by
  rw [show findMatchesIn pat u adv = scanAux pat u adv (u.length + 1) 0 from rfl,
    scanAux_succ, h]

/-- Central property: replacing every non-overlapping scan hit of `pat`
with a non-empty `ρ` that shares no character with `pat` leaves a string
with no occurrence of `pat` at all. -/
theorem noOcc_applyRepls {pat ρ : JStr} (hpat : pat ≠ []) (hρ : ρ ≠ [])
    (hdisj : ∀ c ∈ ρ, c ∉ pat) :
    ∀ n (u : JStr), u.length ≤ n → ∀ q,
      ¬ pat <+: (applyRepls ρ pat.length u (findMatchesIn pat u pat.length)).drop q := by
  have hL : 0 < pat.length := List.length_pos.mpr hpat
  intro n
  induction n with
  | zero =>
    intro u hu q hcon
    have hu0 : u = [] := List.eq_nil_of_length_eq_zero (by omega)
    subst hu0
    have : findMatchesIn pat [] pat.length = [] := by
      apply findMatchesIn_eq_nil_of_noOcc
      intro j hj
      simp at hj
      exact hpat hj
    rw [this] at hcon
    simp [applyRepls] at hcon
    exact hpat hcon
  | succ n ih =>
    intro u hu q hcon
    set L := pat.length with hLdef
    cases hidx : stringIndexOf pat u 0 with
    | none =>
      rw [findMatchesIn_none hidx] at hcon
      simp only [applyRepls] at hcon
      exact stringIndexOf_none hpat hidx q (Nat.zero_le q) hcon
    | some i0 =>
      rw [findMatchesIn_cons hidx] at hcon
      obtain ⟨hge0, hocc0, hmin0⟩ := stringIndexOf_some hidx
      have hdlen : i0 + L ≤ u.length := occ_le_length hpat hocc0
      set d := i0 + L with hddef
      -- the tail of the scan is the scan of the suffix past the first hit
      have htail : scanAux pat u L u.length d =
          (findMatchesIn pat (u.drop d) L).map (· + d) := by
        have h1 : scanAux pat u L u.length (0 + d) =
            (scanAux pat (u.drop d) L u.length 0).map (· + d) := scanAux_shift
        rw [Nat.zero_add] at h1
        have h2 : scanAux pat (u.drop d) L u.length 0 =
            scanAux pat (u.drop d) L ((u.drop d).length + 1) 0 :=
          scanAux_fuel hpat hL (by rw [List.length_drop]; omega) (by omega)
        rw [h1, h2]
        rfl
      rw [htail] at hcon
      -- rewrite the spliced string as prefix ++ ρ ++ recursively spliced suffix
      set u' := u.drop d with hudrop
      set w' := applyRepls ρ L u' (findMatchesIn pat u' L) with hwdef
      have hshift : applyRepls ρ L u ((findMatchesIn pat u' L).map (· + d)) =
          u.take d ++ w' := applyRepls_shift (by omega)
      have hlend : (u.take d).length = d := by rw [List.length_take]; omega
      have hres : applyRepls ρ L u
          (i0 :: (findMatchesIn pat u' L).map (· + d)) =
          u.take i0 ++ ρ ++ w' := by
        have htk : (u.take d ++ w').take i0 = u.take i0 := by
          rw [List.take_append_of_le_length (by omega),
            List.take_take, Nat.min_eq_left (by omega)]
        have hdp : (u.take d ++ w').drop (i0 + L) = w' := by
          rw [List.drop_append_eq_append_drop, hlend,
            List.drop_eq_nil_of_le (by omega),
            List.nil_append, show i0 + L - d = 0 from by omega, List.drop_zero]
        rw [applyRepls_cons, hshift, htk, hdp]
      rw [hres] at hcon
      -- the occurrence must land in the kept prefix, inside ρ, or in the suffix
      have hihtail : ∀ q', ¬ pat <+: w'.drop q' := by
        intro q'
        apply ih u' (by rw [hudrop, List.length_drop]; omega)
      have hlenA : (u.take i0).length = i0 := by
        rw [List.length_take]; omega
      rcases le_or_lt (q + L) i0 with hcase1 | hcase1
      · -- entirely inside the kept prefix: an occurrence of pat before i0
        have hq : q ≤ i0 := by omega
        rw [List.append_assoc, List.drop_append_eq_append_drop, hlenA,
          show q - i0 = 0 from by omega, List.drop_zero] at hcon
        have hfit : pat <+: (u.take i0).drop q :=
          prefix_of_append_of_le hcon (by rw [List.length_drop, hlenA]; omega)
        rw [List.drop_take] at hfit
        have : pat <+: u.drop q := hfit.trans (List.take_prefix ..)
        exact hmin0 q (Nat.zero_le q) (by omega) this
      · rcases le_or_lt (i0 + ρ.length) q with hcase2 | hcase2
        · -- entirely inside the recursively spliced suffix
          have hdrop : (u.take i0 ++ ρ ++ w').drop q =
              w'.drop (q - i0 - ρ.length) := by
            rw [List.append_assoc, List.drop_append_eq_append_drop, hlenA,
              List.drop_eq_nil_of_le (by omega), List.nil_append,
              List.drop_append_eq_append_drop,
              List.drop_eq_nil_of_le (by omega), List.nil_append]
          rw [hdrop] at hcon
          exact hihtail _ hcon
        · -- the occurrence overlaps the inserted ρ: a shared character
          have hρpos : 0 < ρ.length := List.length_pos.mpr hρ
          set R := u.take i0 ++ ρ ++ w' with hRdef
          set m := max q i0 with hmdef
          have hmq : q ≤ m := le_max_left ..
          have hmi : i0 ≤ m := le_max_right ..
          have hm1 : m < q + L := by omega
          have hm2 : m < i0 + ρ.length := by omega
          have hqL : q + L ≤ R.length := occ_le_length hpat hcon
          have hkR : m < R.length := by omega
          have hkpat : m - q < pat.length := by omega
          have hkdrop : m - q < (R.drop q).length := by
            rw [List.length_drop]; omega
          have hkq : q + (m - q) < R.length := by omega
          have hkρ : m - i0 < ρ.length := by omega
          have hidx2 : q + (m - q) = m := by omega
          -- the character of the occurrence at offset m - q is a character of ρ
          have hchar1 : pat[m - q] = (R.drop q)[m - q] :=
            hcon.getElem hkpat
          have hchar2 : (R.drop q)[m - q] = R[q + (m - q)] :=
            List.getElem_drop ..
          have hchar2b : R[q + (m - q)] = R[m] := by
            simp only [hidx2]
          have hchar3 : R[m] = ρ[m - i0] := by
            show ((u.take i0 ++ ρ) ++ w')[m] = _
            rw [List.getElem_append_left (by rw [List.length_append, hlenA]; omega)]
            rw [List.getElem_append_right (by rw [hlenA]; omega)]
            simp only [hlenA]
          have hmem_ρ : ρ[m - i0] ∈ ρ := List.getElem_mem _
          have hmem_pat : pat[m - q] ∈ pat := List.getElem_mem _
          rw [hchar1, hchar2, hchar2b, hchar3] at hmem_pat
          exact hdisj _ hmem_ρ hmem_pat

/-! ### Facts about the document-wide match list -/

mutual
theorem nodeMatches_shift (pat : JStr) (adv : Nat) (mc : Bool) :
    ∀ (n : PMNode) (a b : Nat),
      nodeMatches pat adv mc n (a + b) = (nodeMatches pat adv mc n b).map (shiftM a)
  | .text s, a, b => by
    simp only [nodeMatches, List.map_map]
    apply List.map_congr_left
    intro i _
    simp [shiftM, Function.comp, PMMatch.mk.injEq]
    omega
  | .elem cs, a, b => by
    simp only [nodeMatches]
    rw [show a + b + 1 = a + (b + 1) from by omega]
    exact nodesMatches_shift pat adv mc cs a (b + 1)

theorem nodesMatches_shift (pat : JStr) (adv : Nat) (mc : Bool) :
    ∀ (cs : List PMNode) (a b : Nat),
      nodesMatches pat adv mc cs (a + b) = (nodesMatches pat adv mc cs b).map (shiftM a)
  | [], a, b => by simp [nodesMatches]
  | n :: ns, a, b => by
    simp only [nodesMatches, List.map_append]
    rw [nodeMatches_shift pat adv mc n a b,
      show a + b + nodeSize n = a + (b + nodeSize n) from by omega,
      nodesMatches_shift pat adv mc ns a (b + nodeSize n)]
end

mutual
theorem nodeMatches_bounds {pat : JStr} {mc : Bool} (hpat : pat ≠ []) :
    ∀ (n : PMNode) (pos : Nat) (m : PMMatch),
      m ∈ nodeMatches pat pat.length mc n pos →
        pos ≤ m.fromPos ∧ m.toPos = m.fromPos + pat.length ∧
          m.toPos ≤ pos + nodeSize n
  | .text s, pos, m => by
    intro hm
    simp only [nodeMatches, List.mem_map] at hm
    obtain ⟨i, hi, rfl⟩ := hm
    have hb := findMatchesIn_fit hpat hi
    rw [jsNorm_length] at hb
    refine ⟨by simp, by simp, ?_⟩
    simp only [nodeSize]
    omega
  | .elem cs, pos, m => by
    intro hm
    simp only [nodeMatches] at hm
    obtain ⟨h1, h2, h3⟩ := nodesMatches_bounds hpat cs (pos + 1) m hm
    refine ⟨by omega, h2, ?_⟩
    simp only [nodeSize]
    omega

theorem nodesMatches_bounds {pat : JStr} {mc : Bool} (hpat : pat ≠ []) :
    ∀ (cs : List PMNode) (pos : Nat) (m : PMMatch),
      m ∈ nodesMatches pat pat.length mc cs pos →
        pos ≤ m.fromPos ∧ m.toPos = m.fromPos + pat.length ∧
          m.toPos ≤ pos + nodesSize cs
  | [], pos, m => by intro hm; simp [nodesMatches] at hm
  | n :: ns, pos, m => by
    intro hm
    simp only [nodesMatches, List.mem_append] at hm
    rcases hm with hm | hm
    · obtain ⟨h1, h2, h3⟩ := nodeMatches_bounds hpat n pos m hm
      refine ⟨h1, h2, ?_⟩
      simp only [nodesSize]
      omega
    · obtain ⟨h1, h2, h3⟩ := nodesMatches_bounds hpat ns (pos + nodeSize n) m hm
      refine ⟨by omega, h2, ?_⟩
      simp only [nodesSize]
      omega
end

mutual
theorem nodeMatches_chain {pat : JStr} {mc : Bool} (hpat : pat ≠ []) :
    ∀ (n : PMNode) (pos : Nat),
      List.Chain' (fun a b => a.toPos ≤ b.fromPos) (nodeMatches pat pat.length mc n pos)
  | .text s, pos => by
    simp only [nodeMatches]
    rw [List.chain'_map]
    apply List.Chain'.imp ?_
      (findMatchesIn_chain (u := jsNorm mc s))
    intro a b hab
    simp only []
    omega
  | .elem cs, pos => by
    simp only [nodeMatches]
    exact nodesMatches_chain hpat cs (pos + 1)

theorem nodesMatches_chain {pat : JStr} {mc : Bool} (hpat : pat ≠ []) :
    ∀ (cs : List PMNode) (pos : Nat),
      List.Chain' (fun a b => a.toPos ≤ b.fromPos) (nodesMatches pat pat.length mc cs pos)
  | [], pos => by simp [nodesMatches]
  | n :: ns, pos => by
    simp only [nodesMatches]
    rw [List.chain'_append]
    refine ⟨nodeMatches_chain hpat n pos, nodesMatches_chain hpat ns (pos + nodeSize n), ?_⟩
    intro x hx y hy
    have hxm : x ∈ nodeMatches pat pat.length mc n pos :=
      List.mem_of_mem_getLast? hx
    have hym : y ∈ nodesMatches pat pat.length mc ns (pos + nodeSize n) :=
      List.mem_of_mem_head? hy
    have hxb := nodeMatches_bounds hpat n pos x hxm
    have hyb := nodesMatches_bounds hpat ns (pos + nodeSize n) y hym
    omega
end

/-! ### Facts about applying the replace-all transaction -/

theorem applyTr_append (d : PMDoc) (S1 S2 : List ReplStep) :
    applyTr d (S1 ++ S2) = (applyTr d S1).bind (fun d' => applyTr d' S2) := by
  induction S1 generalizing d with
  | nil => simp [applyTr]
  | cons s rest ih =>
    simp only [List.cons_append, applyTr]
    cases applyStep d s with
    | none => rfl
    | some d' => exact ih d'

theorem applyTrNode_append (n : PMNode) (S1 S2 : List ReplStep) :
    applyTrNode n (S1 ++ S2) = (applyTrNode n S1).bind (fun n' => applyTrNode n' S2) := by
  induction S1 generalizing n with
  | nil => simp [applyTrNode]
  | cons s rest ih =>
    simp only [List.cons_append, applyTrNode]
    cases insertInNode s.text s.fromPos s.toPos n with
    | none => rfl
    | some n' => exact ih n'

/-- Steps for shifted matches are shifted steps. -/
theorem stepsFor_shift (ρ : JStr) (d : Nat) (ms : List PMMatch) :
    stepsFor ρ (ms.map (shiftM d)) = (stepsFor ρ ms).map (shiftStep d) := by
  simp [stepsFor, shiftM, shiftStep, List.map_map, Function.comp]

/-- Steps whose positions all clear the head node's size pass over it
untouched. -/
theorem applyTr_skip (n : PMNode) :
    ∀ (steps : List ReplStep) (ns : List PMNode),
      (∀ s ∈ steps, 0 < s.toPos) →
      applyTr (n :: ns) (steps.map (shiftStep (nodeSize n))) =
        (applyTr ns steps).map (n :: ·)
  | [], ns, _ => by simp [applyTr]
  | s :: rest, ns, h => by
    have hs : 0 < s.toPos := h s (List.mem_cons_self ..)
    simp only [List.map_cons, applyTr, applyStep, shiftStep, insertInChildren]
    rw [if_neg (by omega), if_pos (by omega)]
    simp only [Nat.add_sub_cancel]
    cases hstep : insertInChildren s.text s.fromPos s.toPos ns with
    | none => simp [hstep]
    | some ns' =>
      simp only [hstep, Option.map_some']
      exact applyTr_skip n rest ns' (fun x hx => h x (List.mem_cons_of_mem _ hx))

/-- Steps shifted past an element's open token act on its children. -/
theorem applyTrNode_elem :
    ∀ (steps : List ReplStep) (cs : List PMNode),
      applyTrNode (.elem cs) (steps.map (shiftStep 1)) =
        (applyTr cs steps).map .elem
  | [], cs => by simp [applyTrNode, applyTr]
  | s :: rest, cs => by
    simp only [List.map_cons, applyTrNode, applyTr, applyStep, shiftStep,
      insertInNode]
    rw [if_pos (by omega)]
    simp only [Nat.add_sub_cancel]
    cases hstep : insertInChildren s.text s.fromPos s.toPos cs with
    | none => simp [hstep]
    | some cs' =>
      simp only [hstep, Option.map_some']
      exact applyTrNode_elem rest cs'

mutual
theorem insertInNode_size {repl : JStr} {f t : Nat} :
    ∀ {n n' : PMNode}, insertInNode repl f t n = some n' → f ≤ nodeSize n'
  | .text s, n', h => by
    simp only [insertInNode] at h
    split at h
    · rename_i hcond
      cases h
      simp only [nodeSize]
      simp only [List.length_append, List.length_take, List.length_drop]
      omega
    · cases h
  | .elem cs, n', h => by
    simp only [insertInNode] at h
    split at h
    · rename_i hcond
      cases hinner : insertInChildren repl (f - 1) (t - 1) cs with
      | none => rw [hinner] at h; cases h
      | some cs' =>
        rw [hinner] at h
        cases h
        have := insertInChildren_size hinner
        simp only [nodeSize]
        omega
    · cases h

theorem insertInChildren_size {repl : JStr} {f t : Nat} :
    ∀ {cs cs' : List PMNode}, insertInChildren repl f t cs = some cs' → f ≤ nodesSize cs'
  | [], cs', h => by simp [insertInChildren] at h
  | n :: ns, cs', h => by
    simp only [insertInChildren] at h
    split at h
    · cases hinner : insertInNode repl f t n with
      | none => rw [hinner] at h; cases h
      | some n0 =>
        rw [hinner] at h
        cases h
        have := insertInNode_size hinner
        simp only [nodesSize]
        omega
    · split at h
      · rename_i hcond2
        cases hinner : insertInChildren repl (f - nodeSize n) (t - nodeSize n) ns with
        | none => rw [hinner] at h; cases h
        | some ns' =>
          rw [hinner] at h
          cases h
          have := insertInChildren_size hinner
          simp only [nodesSize]
          omega
      · cases h
end

/-- A descending in-bounds step list aimed at the head node applies inside
the head node. -/
theorem applyTr_into_head :
    ∀ (steps : List ReplStep) (n : PMNode) (ns : List PMNode),
      List.Chain' (fun a b => b.toPos ≤ a.fromPos) steps →
      (∀ s ∈ steps, s.fromPos < s.toPos) →
      (∀ s, steps.head? = some s → s.toPos ≤ nodeSize n) →
      applyTr (n :: ns) steps = (applyTrNode n steps).map (· :: ns)
  | [], n, ns, _, _, _ => by simp [applyTr, applyTrNode]
  | s :: rest, n, ns, hchain, hlt, hhd => by
    have hs : s.toPos ≤ nodeSize n := hhd s rfl
    simp only [applyTr, applyTrNode, applyStep, insertInChildren]
    rw [if_pos hs]
    cases hstep : insertInNode s.text s.fromPos s.toPos n with
    | none => simp [hstep]
    | some n' =>
      simp only [hstep, Option.map_some']
      apply applyTr_into_head rest n' ns (List.chain'_cons'.mp hchain).2
        (fun x hx => hlt x (List.mem_cons_of_mem _ hx))
      intro s' hs'
      have h1 : s'.toPos ≤ s.fromPos :=
        (List.chain'_cons'.mp hchain).1 s' hs'
      have h2 : s.fromPos ≤ nodeSize n' := insertInNode_size hstep
      omega

/-- The backward loop over the scan hits of one text node applies cleanly
and produces exactly the spliced text. -/
theorem applyTrNode_text (ρ : JStr) (L : Nat) (hL : 0 < L) :
    ∀ (idxs : List Nat) (s : JStr),
      List.Chain' (fun i j => i + L ≤ j) idxs →
      (∀ i ∈ idxs, i + L ≤ s.length) →
      applyTrNode (.text s)
          ((stepsFor ρ (idxs.map (fun i => ⟨i, i + L⟩))).reverse) =
        some (.text (applyRepls ρ L s idxs))
  | [], s, _, _ => by simp [stepsFor, applyTrNode, applyRepls]
  | i :: rest, s, hchain, hbound => by
    have hW := applyTrNode_text ρ L hL rest s (List.chain'_cons'.mp hchain).2
      (fun j hj => hbound j (List.mem_cons_of_mem _ hj))
    have hall : ∀ j ∈ rest, i + L ≤ j := chain_all_ge hchain
    have hdi : i + L ≤ s.length := hbound i (List.mem_cons_self ..)
    obtain ⟨-, hlen⟩ := applyRepls_frame (ρ := ρ) (L := L) (s := s) hall hdi
    have hins : insertInNode ρ i (i + L) (PMNode.text (applyRepls ρ L s rest)) =
        some (PMNode.text (applyRepls ρ L s (i :: rest))) := by
      simp only [insertInNode]
      rw [if_pos ⟨by omega, hlen⟩]
      rw [applyRepls_cons]
    simp only [List.map_cons, stepsFor, List.reverse_cons]
    rw [show (List.map (fun m => (⟨ρ, m.fromPos, m.toPos⟩ : ReplStep))
        (rest.map (fun i => (⟨i, i + L⟩ : PMMatch)))).reverse =
        (stepsFor ρ (rest.map (fun i => ⟨i, i + L⟩))).reverse from rfl]
    rw [applyTrNode_append, hW]
    simp [applyTrNode, hins]

mutual
theorem applyTrNode_matches {pat ρ : JStr} {mc : Bool} (hpat : pat ≠ []) :
    ∀ (n : PMNode),
      applyTrNode n ((stepsFor ρ (nodeMatches pat pat.length mc n 0)).reverse) =
        some (replacedNode pat ρ pat.length mc n)
  | .text s => by
    have hL : 0 < pat.length := List.length_pos.mpr hpat
    have hmap : nodeMatches pat pat.length mc (.text s) 0 =
        (findMatchesIn pat (jsNorm mc s) pat.length).map
          (fun i => ⟨i, i + pat.length⟩) := by
      simp only [nodeMatches]
      apply List.map_congr_left
      intro i _
      simp [PMMatch.mk.injEq]
    rw [hmap]
    exact applyTrNode_text ρ pat.length hL _ s findMatchesIn_chain
      (fun i hi => by
        have := findMatchesIn_fit hpat hi
        rw [jsNorm_length] at this
        omega)
  | .elem cs => by
    have hshift : nodeMatches pat pat.length mc (.elem cs) 0 =
        (nodesMatches pat pat.length mc cs 0).map (shiftM 1) := by
      simp only [nodeMatches]
      rw [show (0 : Nat) + 1 = 1 + 0 from rfl]
      exact nodesMatches_shift pat pat.length mc cs 1 0
    rw [hshift, stepsFor_shift, ← List.map_reverse, applyTrNode_elem,
      applyTr_matches hpat cs]
    rfl

theorem applyTr_matches {pat ρ : JStr} {mc : Bool} (hpat : pat ≠ []) :
    ∀ (cs : List PMNode),
      applyTr cs ((stepsFor ρ (nodesMatches pat pat.length mc cs 0)).reverse) =
        some (replacedChildren pat ρ pat.length mc cs)
  | [] => by simp [nodesMatches, stepsFor, applyTr, replacedChildren]
  | n :: ns => by
    have hL : 0 < pat.length := List.length_pos.mpr hpat
    have hsplit : nodesMatches pat pat.length mc (n :: ns) 0 =
        nodeMatches pat pat.length mc n 0 ++
          (nodesMatches pat pat.length mc ns 0).map (shiftM (nodeSize n)) := by
      simp only [nodesMatches]
      rw [show (0 : Nat) + nodeSize n = nodeSize n + 0 from by omega]
      rw [nodesMatches_shift pat pat.length mc ns (nodeSize n) 0]
    have hskiparg : ∀ s ∈ (stepsFor ρ (nodesMatches pat pat.length mc ns 0)).reverse,
        0 < s.toPos := by
      intro s hs
      rw [List.mem_reverse] at hs
      simp only [stepsFor, List.mem_map] at hs
      obtain ⟨m, hm, rfl⟩ := hs
      have hb := nodesMatches_bounds hpat ns 0 m hm
      show 0 < m.toPos
      omega
    have hheadchain : List.Chain' (fun a b => b.toPos ≤ a.fromPos)
        ((stepsFor ρ (nodeMatches pat pat.length mc n 0)).reverse) := by
      rw [List.chain'_reverse]
      have hc : List.Chain' (fun a b => a.toPos ≤ b.fromPos)
          (nodeMatches pat pat.length mc n 0) := nodeMatches_chain hpat n 0
      simp only [stepsFor]
      rw [List.chain'_map]
      apply List.Chain'.imp ?_ hc
      intro a b hab
      exact hab
    have hheadlt : ∀ s ∈ (stepsFor ρ (nodeMatches pat pat.length mc n 0)).reverse,
        s.fromPos < s.toPos := by
      intro s hs
      rw [List.mem_reverse] at hs
      simp only [stepsFor, List.mem_map] at hs
      obtain ⟨m, hm, rfl⟩ := hs
      have hb := nodeMatches_bounds hpat n 0 m hm
      show m.fromPos < m.toPos
      omega
    have hheadtop : ∀ s, ((stepsFor ρ (nodeMatches pat pat.length mc n 0)).reverse).head? =
        some s → s.toPos ≤ nodeSize n := by
      intro s hs
      have hmem : s ∈ (stepsFor ρ (nodeMatches pat pat.length mc n 0)).reverse :=
        List.mem_of_mem_head? hs
      rw [List.mem_reverse] at hmem
      simp only [stepsFor, List.mem_map] at hmem
      obtain ⟨m, hm, rfl⟩ := hmem
      have hb := nodeMatches_bounds hpat n 0 m hm
      show m.toPos ≤ nodeSize n
      omega
    rw [hsplit]
    rw [show stepsFor ρ (nodeMatches pat pat.length mc n 0 ++
        (nodesMatches pat pat.length mc ns 0).map (shiftM (nodeSize n))) =
        stepsFor ρ (nodeMatches pat pat.length mc n 0) ++
          stepsFor ρ ((nodesMatches pat pat.length mc ns 0).map
            (shiftM (nodeSize n))) from by simp [stepsFor]]
    rw [List.reverse_append, stepsFor_shift, ← List.map_reverse]
    rw [applyTr_append]
    rw [applyTr_skip n _ ns hskiparg]
    rw [applyTr_matches hpat ns]
    simp only [Option.map_some', Option.some_bind]
    rw [applyTr_into_head _ n _ hheadchain hheadlt hheadtop]
    rw [applyTrNode_matches hpat n]
    rfl
end

mutual
theorem replacedNode_noMatches {pat ρ : JStr} {mc : Bool} (hpat : pat ≠ [])
    (hρ : jsNorm mc ρ ≠ []) (hdisj : ∀ c ∈ jsNorm mc ρ, c ∉ pat) :
    ∀ (n : PMNode) (pos : Nat),
      nodeMatches pat pat.length mc (replacedNode pat ρ pat.length mc n) pos = []
  | .text s, pos => by
    simp only [replacedNode, nodeMatches]
    rw [jsNorm_applyRepls]
    rw [findMatchesIn_eq_nil_of_noOcc
      (fun q => noOcc_applyRepls hpat hρ hdisj (jsNorm mc s).length
        (jsNorm mc s) (le_refl _) q)]
    rfl
  | .elem cs, pos => by
    simp only [replacedNode, nodeMatches]
    exact replacedChildren_noMatches hpat hρ hdisj cs (pos + 1)

theorem replacedChildren_noMatches {pat ρ : JStr} {mc : Bool} (hpat : pat ≠ [])
    (hρ : jsNorm mc ρ ≠ []) (hdisj : ∀ c ∈ jsNorm mc ρ, c ∉ pat) :
    ∀ (cs : List PMNode) (pos : Nat),
      nodesMatches pat pat.length mc (replacedChildren pat ρ pat.length mc cs) pos = []
  | [], pos => by simp [replacedChildren, nodesMatches]
  | n :: ns, pos => by
    simp only [replacedChildren, nodesMatches]
    rw [replacedNode_noMatches hpat hρ hdisj n pos,
      replacedChildren_noMatches hpat hρ hdisj ns _]
    rfl
end

/-! ### Equations for the engine operations -/

theorem jsNorm_eq (mc : Bool) (t : JStr) :
    (if mc then t else jsToLower t) = jsNorm mc t := rfl

/-- `findAll` on a non-empty term: the state records the term, the flag and
the scan result, and the first match is selected exactly when one exists. -/
theorem findAll_eq {st : FRState} {t : JStr} {mc : Bool} (ht : t ≠ []) :
    findAll st t mc =
      ({ st with
          searchTerm := t
          matchCase := mc
          currentMatches := nodesMatches (jsNorm mc t) (jsNorm mc t).length mc st.doc 0
          currentMatchIndex :=
            if (nodesMatches (jsNorm mc t) (jsNorm mc t).length mc st.doc 0).isEmpty
            then -1 else 0 },
       nodesMatches (jsNorm mc t) (jsNorm mc t).length mc st.doc 0) := by
  have hemp : t.isEmpty = false := by
    cases t with
    | nil => exact absurd rfl ht
    | cons c cs => rfl
  simp only [findAll, hemp, Bool.false_eq_true, if_false, jsNorm_eq]
  rw [← jsNorm_length mc t]

/-- `replaceAll` on a non-empty match list: one transaction holding the
reversed step list, one dispatch, the count returned, the state cleared. -/
theorem replaceAll_eq {st : FRState} {r : JStr} (h : st.currentMatches ≠ []) :
    replaceAll st r =
      (st.currentMatches.length,
       clearFR { st with doc := dispatchDoc st.doc ((stepsFor r st.currentMatches).reverse) },
       [(stepsFor r st.currentMatches).reverse]) := by
  have hlen : ¬ st.currentMatches.length = 0 := by
    simpa [List.length_eq_zero] using h
  simp only [replaceAll, hlen, if_false]
  rw [show st.currentMatches.reverse.map
      (fun m => ReplStep.mk r m.fromPos m.toPos) =
      (stepsFor r st.currentMatches).reverse from by
    simp [stepsFor, List.map_reverse]]

/-- The full replace-all pipeline: search, then replace all, applied to the
document; the dispatched transaction applies cleanly and leaves the
per-leaf spliced document. -/
theorem replaceAll_dispatch_doc {st : FRState} {t r : JStr} {mc : Bool}
    (ht : t ≠ []) :
    dispatchDoc st.doc
        ((stepsFor r (nodesMatches (jsNorm mc t) (jsNorm mc t).length mc st.doc 0)).reverse) =
      replacedChildren (jsNorm mc t) r (jsNorm mc t).length mc st.doc := by
  have hpat : jsNorm mc t ≠ [] := jsNorm_ne_nil mc t ht
  unfold dispatchDoc
  rw [applyTr_matches hpat st.doc]
  rfl

/-! ### Navigation arithmetic and registry helpers -/

/-- Strengthen a chain relation using facts about the list's members. -/
theorem chain_imp_mem {α : Type} {R S : α → α → Prop} :
    ∀ {l : List α}, List.Chain' R l →
      (∀ a ∈ l, ∀ b ∈ l, R a b → S a b) → List.Chain' S l
  | [], _, _ => List.chain'_nil
  | [a], _, _ => List.chain'_singleton a
  | a :: b :: l, hc, himp => by
    rw [List.chain'_cons] at hc ⊢
    refine ⟨himp a (by simp) b (by simp) hc.1, ?_⟩
    exact chain_imp_mem hc.2 (fun x hx y hy hr =>
      himp x (List.mem_cons_of_mem _ hx) y (List.mem_cons_of_mem _ hy) hr)

theorem tmod_eq_self {a n : Int} (ha : 0 ≤ a) (hlt : a < n) : a.tmod n = a := by
  rw [Int.tmod_eq_emod ha (by omega)]
  exact Int.emod_eq_of_lt ha hlt

theorem tmod_range {a n : Int} (ha : 0 ≤ a) (hn : 0 < n) :
    0 ≤ a.tmod n ∧ a.tmod n < n := by
  rw [Int.tmod_eq_emod ha (by omega)]
  exact ⟨Int.emod_nonneg a (by omega), Int.emod_lt_of_pos a hn⟩

theorem tmod_add_right {a b n : Int} (ha : 0 ≤ a) (hb : 0 ≤ b) (hn : 0 < n) :
    (a.tmod n + b).tmod n = (a + b).tmod n := by
  have h2 : 0 ≤ a % n := Int.emod_nonneg a (by omega)
  rw [Int.tmod_eq_emod ha (by omega),
    Int.tmod_eq_emod (by omega) (by omega),
    Int.tmod_eq_emod (by omega) (by omega),
    Int.emod_add_emod]

/-- `findNext` leaves the match list alone. -/
theorem findNext_matches (st : FRState) :
    (findNext st).currentMatches = st.currentMatches := by
  unfold findNext
  split <;> rfl

/-- `findPrevious` leaves the match list alone. -/
theorem findPrevious_matches (st : FRState) :
    (findPrevious st).currentMatches = st.currentMatches := by
  unfold findPrevious
  split <;> rfl

/-- Step equation for `findNext` on a non-empty match list. -/
theorem findNext_eq_of_ne {st : FRState} (h : st.currentMatches ≠ []) :
    findNext st =
      { st with currentMatchIndex :=
          (st.currentMatchIndex + 1).tmod st.currentMatches.length } := by
  unfold findNext
  rw [if_neg (by simpa [List.length_eq_zero] using h)]

/-- Step equation for `findPrevious` on a non-empty match list. -/
theorem findPrevious_eq_of_ne {st : FRState} (h : st.currentMatches ≠ []) :
    findPrevious st =
      { st with currentMatchIndex :=
          if st.currentMatchIndex - 1 < 0 then (st.currentMatches.length : Int) - 1
          else st.currentMatchIndex - 1 } := by
  unfold findPrevious
  rw [if_neg (by simpa [List.length_eq_zero] using h)]

/-- Iterating `findNext` adds one per step, modulo the match count. -/
theorem findNext_iterate (k : Nat) :
    ∀ (st : FRState), st.currentMatches ≠ [] →
      0 ≤ st.currentMatchIndex →
      st.currentMatchIndex < st.currentMatches.length →
      (findNext^[k] st).currentMatches = st.currentMatches ∧
        (findNext^[k] st).currentMatchIndex =
          (st.currentMatchIndex + k).tmod st.currentMatches.length := by
  induction k with
  | zero =>
    intro st hne h0 h1
    exact ⟨rfl, by simpa using (tmod_eq_self h0 h1).symm⟩
  | succ k ih =>
    intro st hne h0 h1
    have hn : 0 < (st.currentMatches.length : Int) := by
      have := List.length_pos.mpr hne
      omega
    obtain ⟨hm, hi⟩ := ih st hne h0 h1
    rw [Function.iterate_succ_apply']
    have hne2 : ((findNext^[k]) st).currentMatches ≠ [] := by rw [hm]; exact hne
    rw [findNext_eq_of_ne hne2]
    constructor
    · simpa using hm
    · simp only [hi, hm]
      have h2 : 0 ≤ st.currentMatchIndex + (k : Int) := by omega
      rw [tmod_add_right h2 (by omega) hn]
      congr 1
      omega

/-- Iterating `findPrevious` adds `count - 1` per step, modulo the match
count. -/
theorem findPrevious_iterate (k : Nat) :
    ∀ (st : FRState), st.currentMatches ≠ [] →
      0 ≤ st.currentMatchIndex →
      st.currentMatchIndex < st.currentMatches.length →
      (findPrevious^[k] st).currentMatches = st.currentMatches ∧
        (findPrevious^[k] st).currentMatchIndex =
          (st.currentMatchIndex + k * ((st.currentMatches.length : Int) - 1)).tmod
            st.currentMatches.length := by
  induction k with
  | zero =>
    intro st hne h0 h1
    exact ⟨rfl, by simpa using (tmod_eq_self h0 h1).symm⟩
  | succ k ih =>
    intro st hne h0 h1
    have hnpos : 0 < st.currentMatches.length := List.length_pos.mpr hne
    have hn : 0 < (st.currentMatches.length : Int) := by omega
    obtain ⟨hm, hi⟩ := ih st hne h0 h1
    rw [Function.iterate_succ_apply']
    have hk0 : 0 ≤ st.currentMatchIndex + k * ((st.currentMatches.length : Int) - 1) := by
      have : (0 : Int) ≤ k * ((st.currentMatches.length : Int) - 1) := by
        apply mul_nonneg <;> omega
      omega
    have hcur := tmod_range hk0 hn
    have hne2 : ((findPrevious^[k]) st).currentMatches ≠ [] := by rw [hm]; exact hne
    rw [findPrevious_eq_of_ne hne2]
    constructor
    · simpa using hm
    · simp only [hi, hm]
      set a := (st.currentMatchIndex + k * ((st.currentMatches.length : Int) - 1)).tmod
        st.currentMatches.length with hadef
      have hstep : (if a - 1 < 0 then (st.currentMatches.length : Int) - 1 else a - 1) =
          (a + ((st.currentMatches.length : Int) - 1)).tmod st.currentMatches.length := by
        rcases lt_or_le (a - 1) 0 with hlt | hge
        · rw [if_pos hlt]
          have ha0 : a = 0 := by omega
          rw [ha0, Int.zero_add]
          exact (tmod_eq_self (by omega) (by omega)).symm
        · rw [if_neg (by omega)]
          have hsplit : a + ((st.currentMatches.length : Int) - 1) =
              (a - 1) + (st.currentMatches.length : Int) * 1 := by omega
          rw [hsplit, Int.tmod_eq_emod (by omega) (by omega),
            Int.add_mul_emod_self_left]
          rw [Int.emod_eq_of_lt (by omega) (by omega)]
      rw [hstep, hadef, tmod_add_right hk0 (by omega) hn]
      congr 1
      push_cast
      ring

theorem regGet_regSet (reg : Registry) (k : Nat) (v : CtrlModel) :
    regGet (regSet reg k v) k = some v := by
  induction reg with
  | nil => simp [regSet, regGet]
  | cons p rest ih =>
    obtain ⟨k', c'⟩ := p
    by_cases h : k' = k
    · simp [regSet, regGet, h]
    · simp [regSet, regGet, h, ih]

theorem regCount_regSet (reg : Registry) (k : Nat) (v : CtrlModel)
    (h : (regGet reg k).isSome) :
    regCount (regSet reg k v) k = regCount reg k := by
  induction reg with
  | nil => simp [regGet] at h
  | cons p rest ih =>
    obtain ⟨k', c'⟩ := p
    by_cases hk : k' = k
    · simp [regSet, regCount, hk]
    · simp only [regGet, hk, if_false] at h
      simp [regSet, regCount, hk, ih h]

/-! ### The claims -/

/-- Claim C3 (confirmed): for every document and non-empty term, `search`
returns matches in strictly ascending `from` order, each of the search
term's length, and rerunning it on the unmodified document returns the
same MatchSet: state and match list alike. -/
theorem spec_search_sorted_idempotent (st : FRState) (t : JStr) (mc : Bool)
    (ht : t ≠ []) :
    List.Chain' (fun a b : PMMatch => a.fromPos < b.fromPos) (findAll st t mc).2 ∧
    (∀ m ∈ (findAll st t mc).2, m.toPos - m.fromPos = t.length) ∧
    findAll (findAll st t mc).1 t mc = findAll st t mc := by
  have hpat : jsNorm mc t ≠ [] := jsNorm_ne_nil mc t ht
  have hL : 0 < (jsNorm mc t).length := List.length_pos.mpr hpat
  have hLt : (jsNorm mc t).length = t.length := jsNorm_length mc t
  refine ⟨?_, ?_, ?_⟩
  · rw [findAll_eq ht]
    simp only []
    apply chain_imp_mem (nodesMatches_chain hpat st.doc 0)
    intro a ha b hb hab
    have hba := nodesMatches_bounds hpat st.doc 0 a ha
    omega
  · rw [findAll_eq ht]
    simp only []
    intro m hm
    have hb := nodesMatches_bounds hpat st.doc 0 m hm
    omega
  · obtain ⟨doc, cm, ci, sterm, smc⟩ := st
    rw [findAll_eq ht, findAll_eq ht]

/-- Witness for C3 at a concrete document and term. -/
theorem spec_search_sorted_idempotent_witness :
    findAll (findAll (initFR [PMNode.text ['c', 'a', 'c', 'a']]) ['c', 'a'] false).1
        ['c', 'a'] false =
      findAll (initFR [PMNode.text ['c', 'a', 'c', 'a']]) ['c', 'a'] false :=
  (spec_search_sorted_idempotent (initFR [PMNode.text ['c', 'a', 'c', 'a']])
    ['c', 'a'] false (by decide)).2.2

/-- Claim C10 (confirmed): the matches of one `findAll` call are pairwise
disjoint: consecutive matches satisfy `to ≤ from` of the next, for every
document, non-empty term and case flag. -/
theorem spec_findAll_disjoint (st : FRState) (t : JStr) (mc : Bool)
    (ht : t ≠ []) :
    List.Chain' (fun a b : PMMatch => a.toPos ≤ b.fromPos) (findAll st t mc).2 := by
  have hpat : jsNorm mc t ≠ [] := jsNorm_ne_nil mc t ht
  rw [findAll_eq ht]
  exact nodesMatches_chain hpat st.doc 0

/-- Witness for C10 at a concrete document and term. -/
theorem spec_findAll_disjoint_witness :
    List.Chain' (fun a b : PMMatch => a.toPos ≤ b.fromPos)
      (findAll (initFR [PMNode.text ['a', 'a', 'a', 'a']]) ['a', 'a'] true).2 :=
  spec_findAll_disjoint (initFR [PMNode.text ['a', 'a', 'a', 'a']])
    ['a', 'a'] true (by decide)

/-- Claim C7 (confirmed): the scan is non-overlapping — searching `"aa"` in
a document whose text is `"aaaa"` yields exactly the two matches at
positions 0 and 2, never three. -/
theorem spec_overlap_rule :
    (findAll (initFR [PMNode.text ['a', 'a', 'a', 'a']]) ['a', 'a'] false).2 =
      [⟨0, 2⟩, ⟨2, 4⟩] ∧
    (findAll (initFR [PMNode.text ['a', 'a', 'a', 'a']]) ['a', 'a'] false).2.length = 2 := by
  constructor <;> decide

/-- Claim C5 (corrected), counterexample: the match-case checkbox state is
not consulted by the Enter handler.  Recorded flag `false`, checkbox now
`true`, same term, non-empty MatchSet: the claim demands a new search, the
code routes to `next()`. -/
theorem spec_commit_counterexample :
    (FRState.mk [PMNode.text ['a']] [⟨0, 1⟩] 0 ['a'] false).matchCase ≠ true ∧
    findInputEnterAction (FRState.mk [PMNode.text ['a']] [⟨0, 1⟩] 0 ['a'] false)
        ['a'] = FindCommitAction.nextAction ∧
    (findInputEnter (FRState.mk [PMNode.text ['a']] [⟨0, 1⟩] 0 ['a'] false)
        ['a'] true).1 = FindCommitAction.nextAction := by
  refine ⟨by decide, by decide, ?_⟩
  rfl

/-- Claim C5 (amended): committing the find input triggers `next()` exactly
when the MatchSet is non-empty and the entered term equals the recorded
search term — the case-sensitivity flag is not compared — and otherwise
triggers a new search. -/
theorem spec_commit_decision (st : FRState) (input : JStr) :
    (findInputEnterAction st input = FindCommitAction.nextAction ↔
      st.currentMatches ≠ [] ∧ st.searchTerm = input) ∧
    (findInputEnterAction st input = FindCommitAction.searchAction ↔
      ¬ (st.currentMatches ≠ [] ∧ st.searchTerm = input)) := by
  unfold findInputEnterAction
  by_cases h : 0 < st.currentMatches.length ∧ st.searchTerm = input
  · rw [if_pos h]
    have hne : st.currentMatches ≠ [] := by
      have := h.1
      intro hcon
      rw [hcon] at this
      simp at this
    simp [hne, h.2]
  · rw [if_neg h]
    have : ¬ (st.currentMatches ≠ [] ∧ st.searchTerm = input) := by
      intro hcon
      exact h ⟨List.length_pos.mpr hcon.1, hcon.2⟩
    simp only [this, iff_false, iff_true, not_false_eq_true, and_true]
    intro hcon
    cases hcon

/-- Claim C6 (corrected), counterexample: when the real editor view is
reachable on the replacement surface, the native branch builds a fresh
controller but never touches the registry, so the registered record under
the stable id keeps pointing at the old adapter (id 0), not at anything on
the new surface (adapter id 9). -/
theorem spec_registry_counterexample :
    handleSurface [(7, ⟨0, 0, 0, true, true⟩)]
        ⟨true, false, true, true, true, 7, 5, 9⟩ =
      [(7, ⟨0, 0, 0, true, true⟩)] ∧
    regGet (handleSurface [(7, ⟨0, 0, 0, true, true⟩)]
        ⟨true, false, true, true, true, 7, 5, 9⟩) 7 = some ⟨0, 0, 0, true, true⟩ := by
  constructor <;> decide

/-- Claim C6 (amended): when the new surface exposes its toolbar and
content, the trigger button is absent, the real editor view is not
reachable and the ProseMirror view description is available (the surrogate
reuse path), processing a replacement surface with a registered stable id
leaves exactly one record under that id, rebinds its adapter and toolbar
references to the new surface, and shows the active visual state on the
re-injected affordance exactly when the controller was expanded. -/
theorem spec_registry_rebind (reg : Registry) (surf : MockSurface) (c : CtrlModel)
    (hmenu : surf.menuPresent = true)
    (hbtn : surf.buttonPresent = false)
    (hcontent : surf.editorContentPresent = true)
    (hpm : surf.pmViewDescPresent = true)
    (hnative : surf.realViewReachable = false)
    (hget : regGet reg surf.stableId = some c)
    (hcount : regCount reg surf.stableId = 1) :
    regCount (handleSurface reg surf) surf.stableId = 1 ∧
    regGet (handleSurface reg surf) surf.stableId =
      some { c with
              viewId := surf.adapterId
              logicViewId := surf.adapterId
              toolbarId := surf.menuId
              buttonActive := c.isExpanded } := by
  have hhandle : handleSurface reg surf =
      regSet reg surf.stableId
        { c with
            viewId := surf.adapterId
            logicViewId := surf.adapterId
            toolbarId := surf.menuId
            buttonActive := c.isExpanded } := by
    unfold handleSurface
    rw [if_neg (by rw [hmenu]; simp), if_neg (by rw [hbtn]; simp),
      if_neg (by rw [hcontent]; simp), if_neg (by rw [hnative]; simp),
      if_neg (by rw [hpm]; simp), hget]
    simp only [hbtn, Bool.not_false, if_pos trivial]
    rfl
  rw [hhandle]
  refine ⟨?_, regGet_regSet ..⟩
  rw [regCount_regSet reg surf.stableId _ (by rw [hget]; rfl), hcount]

/-- Witness for C6 (amended) at a concrete registry and surface. -/
theorem spec_registry_rebind_witness :
    regGet (handleSurface [(7, ⟨0, 0, 0, true, true⟩)]
        ⟨true, false, true, true, false, 7, 5, 9⟩) 7 =
      some ⟨9, 9, 5, true, true⟩ :=
  (spec_registry_rebind [(7, ⟨0, 0, 0, true, true⟩)]
    ⟨true, false, true, true, false, 7, 5, 9⟩ ⟨0, 0, 0, true, true⟩
    rfl rfl rfl rfl rfl (by decide) (by decide)).2

/-- Claim C1 (corrected), counterexample: in document text `"aab"` with
term `"ab"` and replacement `"b"`, the replacement does not contain the
term, yet after `replaceAll` the document is `"ab"` and a subsequent search
finds one match, not zero — the kept prefix and the replacement together
form a fresh occurrence. -/
theorem spec_replaceAll_counterexample :
    ¬ (['a', 'b'] <:+: ['b']) ∧
    (findAll
        (replaceAll
          (findAll (initFR [PMNode.text ['a', 'a', 'b']]) ['a', 'b'] true).1
          ['b']).2.1
        ['a', 'b'] true).2 = [⟨0, 2⟩] := by
  constructor <;> decide

/-- Claim C1 (amended): when a prior `search(t)` produced `n ≥ 1` matches,
`replaceAll(r)` returns `n`, dispatches exactly one transaction holding one
replacement per match, and — provided `r` is non-empty and, after case
normalisation, shares no character with `t` — a subsequent `search(t)` on
the resulting document returns zero matches. -/
theorem spec_replaceAll_then_search (st : FRState) (t r : JStr) (mc : Bool)
    (ht : t ≠ []) (hr : r ≠ [])
    (hdisj : ∀ c ∈ jsNorm mc r, c ∉ jsNorm mc t)
    (hms : (findAll st t mc).2 ≠ []) :
    (replaceAll (findAll st t mc).1 r).1 = (findAll st t mc).2.length ∧
    (replaceAll (findAll st t mc).1 r).2.2 =
      [(stepsFor r (findAll st t mc).2).reverse] ∧
    ((stepsFor r (findAll st t mc).2).reverse).length = (findAll st t mc).2.length ∧
    (findAll (replaceAll (findAll st t mc).1 r).2.1 t mc).2 = [] := by
  have hpat : jsNorm mc t ≠ [] := jsNorm_ne_nil mc t ht
  have hfind := @findAll_eq st t mc ht
  have hMne : (findAll st t mc).1.currentMatches ≠ [] := by
    rw [hfind]
    rw [hfind] at hms
    exact hms
  have hra := @replaceAll_eq (findAll st t mc).1 r hMne
  refine ⟨?_, ?_, ?_, ?_⟩
  · rw [hra, hfind]
  · rw [hra, hfind]
  · rw [hfind]
    simp [stepsFor]
  · rw [hra]
    have hdoc : (clearFR { (findAll st t mc).1 with
        doc := dispatchDoc (findAll st t mc).1.doc
          ((stepsFor r (findAll st t mc).1.currentMatches).reverse) }).doc =
        replacedChildren (jsNorm mc t) r (jsNorm mc t).length mc st.doc := by
      simp only [clearFR]
      rw [hfind]
      exact @replaceAll_dispatch_doc st t r mc ht
    rw [findAll_eq ht]
    simp only []
    rw [hdoc]
    exact replacedChildren_noMatches hpat (jsNorm_ne_nil mc r hr) hdisj st.doc 0

/-- Witness for C1 (amended) at a concrete document, term and
replacement. -/
theorem spec_replaceAll_then_search_witness :
    (findAll
        (replaceAll
          (findAll (initFR [PMNode.text ['a', 'b', 'c']]) ['b'] true).1
          ['x']).2.1
        ['b'] true).2 = [] :=
  (spec_replaceAll_then_search (initFR [PMNode.text ['a', 'b', 'c']])
    ['b'] ['x'] true (by decide) (by decide) (by decide) (by decide)).2.2.2

/-- Claim C2 (confirmed): on a non-empty MatchSet, `replaceAll` builds one
transaction whose steps are the matches walked backwards — strictly
descending `from` order, the last match first — dispatches it exactly once,
returns the match count, and afterwards the MatchSet, the current index and
the search term are cleared unconditionally, with no re-search. -/
theorem spec_replaceAll_transaction (st : FRState) (r : JStr)
    (hne : st.currentMatches ≠ [])
    (hchain : List.Chain' (fun a b : PMMatch => a.toPos ≤ b.fromPos) st.currentMatches)
    (hlt : ∀ m ∈ st.currentMatches, m.fromPos < m.toPos) :
    replaceAll st r =
      (st.currentMatches.length,
       clearFR { st with
          doc := dispatchDoc st.doc ((stepsFor r st.currentMatches).reverse) },
       [(stepsFor r st.currentMatches).reverse]) ∧
    ((stepsFor r st.currentMatches).reverse).length = st.currentMatches.length ∧
    ((stepsFor r st.currentMatches).reverse).map ReplStep.fromPos =
      (st.currentMatches.map PMMatch.fromPos).reverse ∧
    List.Chain' (fun a b : ReplStep => b.fromPos < a.fromPos)
      ((stepsFor r st.currentMatches).reverse) ∧
    (replaceAll st r).2.1.currentMatches = [] ∧
    (replaceAll st r).2.1.currentMatchIndex = -1 ∧
    (replaceAll st r).2.1.searchTerm = [] := by
  have hra := @replaceAll_eq st r hne
  refine ⟨hra, by simp [stepsFor], by simp [stepsFor], ?_, ?_, ?_, ?_⟩
  · rw [List.chain'_reverse]
    simp only [stepsFor]
    rw [List.chain'_map]
    apply chain_imp_mem hchain
    intro a ha b hb hab
    have := hlt a ha
    simp only [flip]
    omega
  · rw [hra]; rfl
  · rw [hra]; rfl
  · rw [hra]; rfl

/-- Witness for C2 at a concrete state holding two ascending matches. -/
theorem spec_replaceAll_transaction_witness :
    (replaceAll
        (FRState.mk [PMNode.text ['a', 'b']] [⟨0, 1⟩, ⟨1, 2⟩] 0 ['a'] false)
        ['z']).2.1.currentMatches = [] ∧
    ((stepsFor ['z'] [⟨0, 1⟩, ⟨1, 2⟩]).reverse).length = 2 := by
  have h := spec_replaceAll_transaction
    (FRState.mk [PMNode.text ['a', 'b']] [⟨0, 1⟩, ⟨1, 2⟩] 0 ['a'] false)
    ['z'] (by decide) (by simp) (by decide)
  exact ⟨h.2.2.2.2.1, h.2.1⟩

/-- Claim C4 (confirmed): `replaceCurrent` returns `false` exactly when
there is no current match (empty MatchSet or negative index), leaving the
state untouched and dispatching nothing; otherwise it dispatches one
transaction holding the single replacement of the current match's
`[from, to)` span with the given text and returns `true`. -/
theorem spec_replaceCurrent (st : FRState) (r : JStr) :
    ((replaceCurrent st r).1 = false ↔
      (st.currentMatches = [] ∨ st.currentMatchIndex < 0)) ∧
    ((st.currentMatches = [] ∨ st.currentMatchIndex < 0) →
      replaceCurrent st r = (false, st, [])) ∧
    (¬ (st.currentMatches = [] ∨ st.currentMatchIndex < 0) →
      replaceCurrent st r =
        (true,
         { st with
            doc := dispatchDoc st.doc
              [⟨r, (st.currentMatches.getD st.currentMatchIndex.toNat ⟨0, 0⟩).fromPos,
                (st.currentMatches.getD st.currentMatchIndex.toNat ⟨0, 0⟩).toPos⟩] },
         [[⟨r, (st.currentMatches.getD st.currentMatchIndex.toNat ⟨0, 0⟩).fromPos,
            (st.currentMatches.getD st.currentMatchIndex.toNat ⟨0, 0⟩).toPos⟩]])) := by
  have hcond : (st.currentMatches.length = 0 ∨ st.currentMatchIndex < 0) ↔
      (st.currentMatches = [] ∨ st.currentMatchIndex < 0) := by
    rw [List.length_eq_zero]
  by_cases h : st.currentMatches.length = 0 ∨ st.currentMatchIndex < 0
  · have heq : replaceCurrent st r = (false, st, []) := by
      unfold replaceCurrent
      rw [if_pos h]
    refine ⟨by rw [heq]; simpa using hcond.mp h, fun _ => heq, fun hcon => ?_⟩
    exact absurd (hcond.mp h) hcon
  · have heq : replaceCurrent st r =
        (true,
         { st with
            doc := dispatchDoc st.doc
              [⟨r, (st.currentMatches.getD st.currentMatchIndex.toNat ⟨0, 0⟩).fromPos,
                (st.currentMatches.getD st.currentMatchIndex.toNat ⟨0, 0⟩).toPos⟩] },
         [[⟨r, (st.currentMatches.getD st.currentMatchIndex.toNat ⟨0, 0⟩).fromPos,
            (st.currentMatches.getD st.currentMatchIndex.toNat ⟨0, 0⟩).toPos⟩]]) := by
      unfold replaceCurrent
      rw [if_neg h]
    refine ⟨by rw [heq]; simpa using fun hcon => h (hcond.mpr hcon), ?_, fun _ => heq⟩
    intro hcon
    exact absurd (hcond.mpr hcon) h

/-- Witness for C4: on a state with no current match the call fails and
changes nothing. -/
theorem spec_replaceCurrent_witness :
    replaceCurrent (initFR [PMNode.text ['a']]) ['x'] =
      (false, initFR [PMNode.text ['a']], []) :=
  (spec_replaceCurrent (initFR [PMNode.text ['a']]) ['x']).2.1 (by decide)

/-- Claim C8 (confirmed): on an empty MatchSet both `next()` and
`previous()` are no-ops, and on a non-empty MatchSet of size `count`, under
the engine's index invariant, composing `next()` `count` times — and
likewise `previous()` `count` times — returns the current index to its
original value. -/
theorem spec_nav_wraparound (st : FRState)
    (hinv : st.currentMatches ≠ [] →
      0 ≤ st.currentMatchIndex ∧
        st.currentMatchIndex < st.currentMatches.length) :
    (st.currentMatches = [] → findNext st = st ∧ findPrevious st = st) ∧
    (st.currentMatches ≠ [] →
      (findNext^[st.currentMatches.length] st).currentMatchIndex =
        st.currentMatchIndex ∧
      (findPrevious^[st.currentMatches.length] st).currentMatchIndex =
        st.currentMatchIndex) := by
  constructor
  · intro hemp
    have hlen : st.currentMatches.length = 0 := by rw [hemp]; rfl
    constructor
    · unfold findNext
      rw [if_pos hlen]
    · unfold findPrevious
      rw [if_pos hlen]
  · intro hne
    obtain ⟨h0, h1⟩ := hinv hne
    have hn : 0 < (st.currentMatches.length : Int) := by
      have := List.length_pos.mpr hne
      omega
    constructor
    · rw [(findNext_iterate st.currentMatches.length st hne h0 h1).2]
      have hsplit : st.currentMatchIndex + (st.currentMatches.length : Int) =
          st.currentMatchIndex + (st.currentMatches.length : Int) * 1 := by ring
      rw [Int.tmod_eq_emod (by omega) (by omega), hsplit,
        Int.add_mul_emod_self_left, Int.emod_eq_of_lt h0 h1]
    · rw [(findPrevious_iterate st.currentMatches.length st hne h0 h1).2]
      have hge : (0 : Int) ≤ (st.currentMatches.length : Int) *
          ((st.currentMatches.length : Int) - 1) := by
        apply mul_nonneg <;> omega
      rw [Int.tmod_eq_emod (by omega) (by omega),
        Int.add_mul_emod_self_left, Int.emod_eq_of_lt h0 h1]

/-- Witness for C8 at a concrete two-match state. -/
theorem spec_nav_wraparound_witness :
    (findNext^[2] (FRState.mk [] [⟨0, 1⟩, ⟨1, 2⟩] 0 [] false)).currentMatchIndex = 0 ∧
    (findPrevious^[2] (FRState.mk [] [⟨0, 1⟩, ⟨1, 2⟩] 0 [] false)).currentMatchIndex = 0 :=
  (spec_nav_wraparound (FRState.mk [] [⟨0, 1⟩, ⟨1, 2⟩] 0 [] false)
    (by decide)).2 (by decide)

/-- Claim C9 (confirmed): every public operation of the match engine
preserves the state invariant — the current index is `-1` exactly when the
match list is empty, and otherwise lies inside the list. -/
theorem spec_engine_invariant (st : FRState) (t r1 r2 : JStr) (mc : Bool)
    (h : FRInv st) :
    FRInv (findAll st t mc).1 ∧ FRInv (findNext st) ∧ FRInv (findPrevious st) ∧
    FRInv (replaceCurrent st r1).2.1 ∧ FRInv (replaceAll st r2).2.1 ∧
    FRInv (clearFR st) := by
  have hclear : ∀ st' : FRState, FRInv (clearFR st') := by
    intro st'
    simp [FRInv, clearFR]
  obtain ⟨doc, cm, ci, sterm, smc⟩ := st
  refine ⟨?_, ?_, ?_, ?_, ?_, hclear _⟩
  · by_cases ht : t = []
    · subst ht
      unfold findAll
      simp only [List.isEmpty_nil, if_true]
      exact hclear _
    · rw [findAll_eq ht]
      set M := nodesMatches (jsNorm mc t) (jsNorm mc t).length mc doc 0 with hM
      by_cases hMe : M = []
      · simp [FRInv, hMe, List.isEmpty_iff]
      · have hMf : M.isEmpty = false := by
          rw [List.isEmpty_eq_false]
          exact hMe
        simp only [hMf, Bool.false_eq_true, if_false]
        have hpos := List.length_pos.mpr hMe
        refine ⟨⟨fun hcon => ?_, fun hcon => absurd hcon hMe⟩,
          fun _ => ⟨?_, ?_⟩⟩
        · exact absurd (show (0 : Int) = -1 from hcon) (by omega)
        · exact (show (0 : Int) ≤ 0 from le_refl 0)
        · show (0 : Int) < M.length
          omega
  · by_cases hne : cm = []
    · have hlen : cm.length = 0 := by rw [hne]; rfl
      unfold findNext
      rw [if_pos hlen]
      exact h
    · rw [@findNext_eq_of_ne ⟨doc, cm, ci, sterm, smc⟩ hne]
      obtain ⟨h0', h1'⟩ := h.2 hne
      have h0 : (0 : Int) ≤ ci := h0'
      have h1 : ci < (cm.length : Int) := h1'
      have hn : 0 < (cm.length : Int) := by
        have := List.length_pos.mpr hne
        omega
      obtain ⟨hr1, hr2⟩ := tmod_range (a := ci + 1) (by omega) hn
      exact ⟨⟨fun hcon =>
          absurd (show (ci + 1).tmod cm.length = -1 from hcon) (by omega),
        fun hcon => absurd hcon hne⟩, fun _ => ⟨hr1, hr2⟩⟩
  · by_cases hne : cm = []
    · have hlen : cm.length = 0 := by rw [hne]; rfl
      unfold findPrevious
      rw [if_pos hlen]
      exact h
    · rw [@findPrevious_eq_of_ne ⟨doc, cm, ci, sterm, smc⟩ hne]
      obtain ⟨h0', h1'⟩ := h.2 hne
      have h0 : (0 : Int) ≤ ci := h0'
      have h1 : ci < (cm.length : Int) := h1'
      have hnpos : 0 < cm.length := List.length_pos.mpr hne
      by_cases hz : ci - 1 < 0
      · rw [if_pos hz]
        exact ⟨⟨fun hcon =>
            absurd (show (cm.length : Int) - 1 = -1 from hcon) (by omega),
          fun hcon => absurd hcon hne⟩,
          fun _ => ⟨show (0 : Int) ≤ (cm.length : Int) - 1 by omega,
            show (cm.length : Int) - 1 < (cm.length : Int) by omega⟩⟩
      · rw [if_neg hz]
        exact ⟨⟨fun hcon =>
            absurd (show ci - 1 = -1 from hcon) (by omega),
          fun hcon => absurd hcon hne⟩,
          fun _ => ⟨show (0 : Int) ≤ ci - 1 by omega,
            show ci - 1 < (cm.length : Int) by omega⟩⟩
  · unfold replaceCurrent
    split
    · exact h
    · exact h
  · unfold replaceAll
    split
    · exact h
    · exact hclear _

/-- Witness for C9 at the freshly constructed engine state. -/
theorem spec_engine_invariant_witness :
    FRInv (findNext (initFR [PMNode.text ['a']])) :=
  (spec_engine_invariant (initFR [PMNode.text ['a']]) ['a'] ['b'] ['c'] false
    (by decide)).2.1

